import Mathlib

/-!
Verification development for the `hedonica` bartering-game simulator.

The definitions below are a shallow embedding of `src/sim/src/game.rs`,
`src/sim/src/types.rs` and `src/sim/src/stats.rs`:

* Rust `f64` quantities (goods counts, scores, money) are modelled as exact
  rationals `ℚ`.  None of the verified properties depend on floating-point
  rounding; the spec's arithmetic statements are about the ideal values.
* Rust `HashMap`s are modelled as association lists whose order is the
  (arbitrary but fixed) iteration order of the map; a player's `num_goods`
  map, which always holds exactly the six fixed categories, is modelled as a
  total function `Cat → ℚ`.
* Rust panics (failed `assert!`, out-of-bounds indexing, `unwrap` of `None`)
  are modelled by `Option`: `none` is an abort.
* The loops of `play` are modelled with explicit fuel; running out of fuel
  also yields `none` (the theorems below never rely on fuel exhaustion).
-/

namespace Hedonica

/-- The fixed category vocabulary (`CATEGORIES` in game.rs). -/
inductive Cat where
  | money | cars | clothing | food | art | travel
deriving DecidableEq, Repr, Fintype

/-- The categories in their declaration order; `money` first. -/
def Cat.all : List Cat :=
  [Cat.money, Cat.cars, Cat.clothing, Cat.food, Cat.art, Cat.travel]

abbrev PlayerId := Nat

/-- Embedding of `Trade` from types.rs.  The two `GoodsSet` maps are
association lists of (category, signed quantity) pairs, in iteration order. -/
structure Trade where
  proposer : PlayerId
  accepter : PlayerId
  from_proposor : List (Cat × ℚ)
  from_acceptor : List (Cat × ℚ)

/-- Embedding of `PlayerState` from game.rs.  Both maps always contain all six
categories in the Rust code, so they are modelled as total functions. -/
structure PlayerState where
  preferences : Cat → ℚ
  num_goods : Cat → ℚ

/-- `PlayerState::score`: sum over the goods map of count times preference. -/
def PlayerState.score (p : PlayerState) : ℚ :=
  (Cat.all.map fun c => p.num_goods c * p.preferences c).sum

/-- Embedding of `GameState` from game.rs.  `deck` keeps only the category of
each `Good` (the struct's single field).  `current_trade_proposals` is the
`HashMap<PlayerId, Trade>` in its iteration order. -/
structure GameState where
  deck : List Cat
  players : List PlayerState
  lead : PlayerId
  current_turn : Int
  current_round : Int
  current_trade_proposals : List (PlayerId × Trade)
  current_trades : List Trade
  past_trades : List (Int × List Trade)

/-- Goods held by player `i` in category `c`; `0` for an out-of-range index
(every use below is guarded by an explicit bound check, as Rust indexing
panics out of range). -/
def getGoods (players : List PlayerState) (i : Nat) (c : Cat) : ℚ :=
  match players.get? i with
  | some p => p.num_goods c
  | none => 0

/-- Add `d` to player `i`'s holding of category `c` (the in-place
`num_goods.get_mut(c) += d` of the Rust code); no-op out of range. -/
def addGoods : List PlayerState → Nat → Cat → ℚ → List PlayerState
  | [], _, _, _ => []
  | p :: ps, 0, c, d =>
      { p with num_goods := fun c' => if c' = c then p.num_goods c' + d else p.num_goods c' } :: ps
  | p :: ps, Nat.succ i, c, d => p :: addGoods ps i c d

/-- One (category, amount) entry of `end_round`'s settlement loop (game.rs
lines 155-163): assert the holding precondition, then move `amount` from the
proposer to the accepter.  `none` models the `assert!` abort or an
out-of-bounds player index. -/
def settleEntry (players : List PlayerState) (t : Trade) (c : Cat) (amount : ℚ) :
    Option (List PlayerState) :=
  if t.proposer < players.length ∧ t.accepter < players.length then
    if 0 < amount then
      if amount < getGoods players t.proposer c then
        some (addGoods (addGoods players t.proposer c (-amount)) t.accepter c amount)
      else none
    else
      if -amount < getGoods players t.accepter c then
        some (addGoods (addGoods players t.proposer c (-amount)) t.accepter c amount)
      else none
  else none

/-- Sequentially settle the entries of one trade's `from_proposor` map. -/
def settleEntries (t : Trade) : List PlayerState → List (Cat × ℚ) → Option (List PlayerState)
  | ps, [] => some ps
  | ps, e :: rest =>
    match settleEntry ps t e.1 e.2 with
    | none => none
    | some ps' => settleEntries t ps' rest

/-- Settle one accepted trade: `end_round` iterates `trade.from_proposor` only;
`from_acceptor` is not consulted. -/
def settleTrade (players : List PlayerState) (t : Trade) : Option (List PlayerState) :=
  settleEntries t players t.from_proposor

/-- Settle a list of accepted trades in order. -/
def settleTrades : List PlayerState → List Trade → Option (List PlayerState)
  | ps, [] => some ps
  | ps, t :: ts =>
    match settleTrade ps t with
    | none => none
    | some ps' => settleTrades ps' ts

/-- The trades `end_round` settles: `trade_acceptances.into_iter().zip(proposals)`
followed by `.filter(accepted).map(trade)` — the booleans are zipped
positionally with the proposal map's iteration order. -/
def acceptedOf (proposals : List (PlayerId × Trade)) (acc : List Bool) : List Trade :=
  ((acc.zip proposals).filter fun x => x.1).map fun x => x.2.2

/-- Embedding of `GameState::end_round` (game.rs lines 144-169). -/
def GameState.end_round (g : GameState) (acc : List Bool) : Option GameState :=
  let accepted := acceptedOf g.current_trade_proposals acc
  (settleTrades g.players accepted).map fun ps =>
    { g with
      players := ps
      current_trade_proposals := []
      current_trades := g.current_trades ++ accepted
      current_round := g.current_round + 1 }

/-- Embedding of `GameState::end_lead_turn` (game.rs lines 130-142): advance
the lead, assert the proposal map is drained, flush `current_trades` into
`past_trades`, bump the turn, reset the round. -/
def GameState.end_lead_turn (g : GameState) : Option GameState :=
  if g.players.length = 0 then none
  else if g.current_trade_proposals.length = 0 then
    some { g with
      lead := (g.lead + 1) % g.players.length
      past_trades :=
        if 0 < g.current_trades.length
        then g.past_trades ++ [(g.current_turn, g.current_trades)]
        else g.past_trades
      current_trades := []
      current_turn := g.current_turn + 1
      current_round := 0 }
  else none

/-- Embedding of `GameState::start_lead_turn` (game.rs lines 123-128): pop one
good from the deck tail and give it to the lead player. -/
def GameState.start_lead_turn (g : GameState) : Option GameState :=
  match g.deck.getLast? with
  | none => none
  | some c =>
    if g.lead < g.players.length then
      some { g with deck := g.deck.dropLast, players := addGoods g.players g.lead c 1 }
    else none

/-- Embedding of `GameRules` (game.rs lines 172-182). -/
structure GameRules where
  victory_threshold : ℚ
  start_money : ℚ
  deck_size : Nat
  max_turns : Int

/-- Embedding of `GameResult` (game.rs lines 197-202). -/
structure GameResult where
  turns : Int
  winner : PlayerId
  scores : List ℚ

/-- Rust's `Iterator::max_by_key`: of several equally-maximal elements the
LAST one is returned (the fold replaces the current best on `≤`). -/
def maxByKeyLast (key : Nat → ℚ) : List Nat → Option Nat
  | [] => none
  | x :: xs => some (xs.foldl (fun best y => if key best ≤ key y then y else best) x)

/-- Embedding of `GameResult::from_state` (game.rs lines 204-216); `none`
models the `unwrap` panic on an empty player list. -/
def GameResult.from_state (g : GameState) : Option GameResult :=
  let scores := g.players.map PlayerState.score
  (maxByKeyLast (fun pi => scores.getD pi 0) (List.range g.players.length)).map fun w =>
    { turns := g.current_turn, winner := w, scores := scores }

/-- A player strategy (the `PlayerStrategy` trait of player/mod.rs).  The
callbacks are modelled as pure functions of the observed game state; the
trait's `&mut self` internal state, `init` and `reset` play no role in the
claims below, which quantify over arbitrary callback behaviour. -/
structure PlayerStrategy where
  propose_trades_as_lead : GameState → List (PlayerId × Trade)
  propose_trade_as_non_lead : GameState → Option Trade
  accept_trades_as_lead : GameState → List Bool
  accept_trades_as_non_lead : GameState → Trade → Bool

/-- The roster of strategies, indexed by seat. -/
abbrev Roster := PlayerId → PlayerStrategy

/-- Odd-round proposal collection in `play` (game.rs lines 372-381): each
non-lead player, in ascending id order, may insert one proposal keyed by its
own id. -/
def nonLeadProposals (strats : Roster) (n : Nat) (g : GameState) : List (PlayerId × Trade) :=
  (List.range n).filterMap fun pid =>
    if pid = g.lead then none
    else ((strats pid).propose_trade_as_non_lead g).map fun t => (pid, t)

/-- The proposal map assigned in `play` (game.rs lines 369-382), by round
parity.  `n` is the roster length. -/
def proposalsFor (strats : Roster) (n : Nat) (g : GameState) : List (PlayerId × Trade) :=
  if g.current_round % 2 = 0 then (strats g.lead).propose_trades_as_lead g
  else nonLeadProposals strats n g

/-- Even-round acceptance collection in `play` (game.rs lines 391-398): map
each proposal to its addressee's decision, then KEEP ONLY the `true`s. -/
def evenAcceptances (strats : Roster) (g : GameState) : List Bool :=
  (g.current_trade_proposals.map fun pt =>
    (strats pt.1).accept_trades_as_non_lead g pt.2).filter id

/-- The acceptance vector passed to `end_round` (game.rs lines 391-401). -/
def acceptancesFor (strats : Roster) (g : GameState) : List Bool :=
  if g.current_round % 2 = 0 then evenAcceptances strats g
  else (strats g.lead).accept_trades_as_lead g

/-- Result of the inner `'rounds` loop of `play`: either the victory check
fired (`break 'turns`) or the lead went silent (`break 'rounds`). -/
inductive RoundsExit where
  | victory (g : GameState)
  | ended (g : GameState)

/-- The inner `'rounds` loop of `play` (game.rs lines 357-404), with fuel;
the pause and pretty-printing are no-ops for the state machine. -/
def playRounds (strats : Roster) (rules : GameRules) (n : Nat) :
    Nat → GameState → Option RoundsExit
  | 0, _ => none
  | fuel + 1, g =>
    match g.players.get? g.lead with
    | none => none
    | some leadP =>
      if rules.victory_threshold ≤ leadP.score then some (RoundsExit.victory g)
      else
        let g1 := { g with current_trade_proposals := proposalsFor strats n g }
        if 0 < g1.current_round ∧ g1.current_round % 2 = 0 ∧
            g1.current_trade_proposals.length = 0 then
          some (RoundsExit.ended g1)
        else
          match g1.end_round (acceptancesFor strats g1) with
          | none => none
          | some g2 => playRounds strats rules n fuel g2

/-- The outer `'turns` loop of `play` (game.rs lines 349-409), with fuel. -/
def playTurns (strats : Roster) (rules : GameRules) (n roundFuel : Nat) :
    Nat → GameState → Option GameResult
  | 0, _ => none
  | fuel + 1, g =>
    if g.current_turn < rules.max_turns ∧ 0 < g.deck.length then
      match g.start_lead_turn with
      | none => none
      | some g1 =>
        match playRounds strats rules n roundFuel g1 with
        | none => none
        | some (RoundsExit.victory gv) => GameResult.from_state gv
        | some (RoundsExit.ended ge) =>
          match ge.end_lead_turn with
          | none => none
          | some g2 => playTurns strats rules n roundFuel fuel g2
    else GameResult.from_state g

/-- The fixed per-seat starting-cash offset table of `generate_players`
(game.rs line 285): an 11-element array indexed by seat number. -/
def OFFSET : List ℚ := [0, 2, 0, 0, 0, 0, 1, 1, 1, 1, 1]

/-- One step per seat of `generate_players` (game.rs lines 287-303): pop a
preferences card from the deck tail, index `OFFSET` by the seat number
(`none` models the out-of-bounds panic), start with zero of every good and
`start_money + OFFSET[seat] * seat` money. -/
def genPlayersGo (sm : ℚ) : List Nat → List (Cat → ℚ) → Option (List PlayerState)
  | [], _ => some []
  | pn :: rest, deck =>
    match deck.getLast?, OFFSET.get? pn with
    | some prefs, some off =>
      (genPlayersGo sm rest deck.dropLast).map fun ps =>
        { preferences := prefs
          num_goods := fun c => if c = Cat.money then sm + off * (pn : ℚ) else 0 } :: ps
    | _, _ => none

/-- Embedding of `generate_players` (game.rs lines 276-304), parameterized by
the already-generated preferences deck (its RNG shuffle is external). -/
def generate_players (num_players : Nat) (sm : ℚ) (deck : List (Cat → ℚ)) :
    Option (List PlayerState) :=
  genPlayersGo sm (List.range num_players) deck

/-- The streaming statistics aggregator of stats.rs: running min and max plus
a Welford mean/variance accumulator (the `average` crate's `Min`, `Max` and
`Variance`), over exact rationals.  An empty min/max is `none` (the crate
uses the infinities of `f64`). -/
structure Stats where
  minv : Option ℚ
  maxv : Option ℚ
  n : Nat
  avg : ℚ
  sum_2 : ℚ

/-- `Stats::new`: the identity state for zero observations. -/
def Stats.new : Stats := ⟨none, none, 0, 0, 0⟩

/-- `Stats::add`: single-pass Welford update of all accumulators. -/
def Stats.add (s : Stats) (x : ℚ) : Stats :=
  let n' := s.n + 1
  let delta := x - s.avg
  let avg' := s.avg + delta / (n' : ℚ)
  { minv := some (match s.minv with | none => x | some m => min m x)
    maxv := some (match s.maxv with | none => x | some m => max m x)
    n := n'
    avg := avg'
    sum_2 := s.sum_2 + delta * (x - avg') }

/-- `Stats::mean`. -/
def Stats.mean (s : Stats) : ℚ := s.avg

/-- `Stats::var`: the population variance `sum_2 / n` (division by zero is `0`
in `ℚ`, matching the crate's guard for fewer than two observations). -/
def Stats.popVar (s : Stats) : ℚ := s.sum_2 / (s.n : ℚ)

/-- `Stats::min` of the observations so far. -/
def Stats.minVal (s : Stats) : Option ℚ := s.minv

/-- `Stats::max` of the observations so far. -/
def Stats.maxVal (s : Stats) : Option ℚ := s.maxv

/-- Feed a whole list of observations, one at a time, in order. -/
def statsOfList (l : List ℚ) : Stats := l.foldl Stats.add Stats.new

/-- Signed total that a trade's `from_proposor` map assigns to category `c`
(the sum of its entries for `c`; a Rust `HashMap` has each key once). -/
def entriesAmount (c : Cat) : List (Cat × ℚ) → ℚ
  | [] => 0
  | e :: rest => (if e.1 = c then e.2 else 0) + entriesAmount c rest

/-- Per-category total held by a list of players. -/
def playersCatTotal (ps : List PlayerState) (c : Cat) : ℚ :=
  (ps.map fun p => p.num_goods c).sum

/-- Per-category total over all players plus the remaining deck. -/
def catTotal (g : GameState) (c : Cat) : ℚ :=
  playersCatTotal g.players c + (g.deck.count c : ℚ)

/-- Invariant 2 of the spec: every player's holding of every category is
non-negative. -/
def allNonneg (ps : List PlayerState) : Prop :=
  ∀ p ∈ ps, ∀ c : Cat, 0 ≤ p.num_goods c

/-- The score of player `i` of a game, as read by `GameResult::from_state`
(`scores[i]`, with `0` for an out-of-range index, which never occurs there). -/
def scoreAt (g : GameState) (i : Nat) : ℚ :=
  (g.players.map PlayerState.score).getD i 0

/-- A player with no goods and all-zero preference weights. -/
def zeroPlayer : PlayerState where
  preferences := fun _ => 0
  num_goods := fun _ => 0

/-- Two players with identical (hence exactly tied) scores; used to settle the
tie-breaking direction of `GameResult::from_state`. -/
def gC3 : GameState where
  deck := []
  players := [zeroPlayer, zeroPlayer]
  lead := 0
  current_turn := 0
  current_round := 0
  current_trade_proposals := []
  current_trades := []
  past_trades := []

/-- The default "never trade" strategy (`PlayerNoTrades` of
player/rand_no_trades.rs). -/
def noTrades : PlayerStrategy where
  propose_trades_as_lead := fun _ => []
  propose_trade_as_non_lead := fun _ => none
  accept_trades_as_lead := fun g => List.replicate g.current_trade_proposals.length false
  accept_trades_as_non_lead := fun _ _ => false

/-- A roster where every seat never trades. -/
def rosterW : Roster := fun _ => noTrades

/-- Rules with a zero victory threshold (met immediately). -/
def rW : GameRules where
  victory_threshold := 0
  start_money := 10
  deck_size := 500
  max_turns := 1000

/-- A one-player game about to take its first turn, one card in the deck. -/
def gW0 : GameState where
  deck := [Cat.food]
  players := [zeroPlayer]
  lead := 0
  current_turn := 0
  current_round := 0
  current_trade_proposals := []
  current_trades := []
  past_trades := []

/-- The state of `gW0` right after the lead draw. -/
def gW1 : GameState := { gW0 with deck := [], players := addGoods gW0.players 0 Cat.food 1 }

/-- The lead player of `gW1`. -/
def pW1 : PlayerState :=
  { zeroPlayer with
    num_goods := fun c' =>
      if c' = Cat.food then zeroPlayer.num_goods c' + 1 else zeroPlayer.num_goods c' }

/-- Two empty-handed players; the proposer cannot cover any positive amount. -/
def ps5 : List PlayerState := [zeroPlayer, zeroPlayer]

/-- A trade whose proposer owes 1 food it does not hold. -/
def t5 : Trade where
  proposer := 0
  accepter := 1
  from_proposor := [(Cat.food, 1)]
  from_acceptor := []

/-- A player holding 5 food and nothing else. -/
def pFood5 : PlayerState where
  preferences := fun _ => 0
  num_goods := fun c => if c = Cat.food then 5 else 0

/-- Players for the `from_acceptor` counterexample: the accepter (index 1)
holds 5 food. -/
def ps2 : List PlayerState := [zeroPlayer, pFood5]

/-- A trade that, per the claim, should move 1 food out of the accepter
(`from_acceptor` has a positive food entry) and nothing else. -/
def t2 : Trade where
  proposer := 0
  accepter := 1
  from_proposor := []
  from_acceptor := [(Cat.food, 1)]

/-- Players for the settlement-delta witness: the proposer (index 0) holds
5 food. -/
def psW2 : List PlayerState := [pFood5, zeroPlayer]

/-- A settleable trade moving 1 food from the proposer to the accepter. -/
def tW2 : Trade where
  proposer := 0
  accepter := 1
  from_proposor := [(Cat.food, 1)]
  from_acceptor := []

/-- The players after settling `tW2` on `psW2`. -/
def psW2' : List PlayerState := addGoods (addGoods psW2 0 Cat.food (-1)) 1 Cat.food 1

/-- A two-card preferences deck (all-ones preferences). -/
def deckW10 : List (Cat → ℚ) := [fun _ => 1, fun _ => 1]

/-- Two distinct trades proposed by the lead (player 0) to players 1 and 2. -/
def tA : Trade where
  proposer := 0
  accepter := 1
  from_proposor := []
  from_acceptor := []

/-- The second outstanding proposal, addressed to player 2. -/
def tB : Trade where
  proposer := 0
  accepter := 2
  from_proposor := []
  from_acceptor := []

/-- An even-round state with two outstanding lead proposals, to players 1
and 2 (in the proposal map's iteration order). -/
def gC1 : GameState where
  deck := []
  players := [zeroPlayer, zeroPlayer, zeroPlayer]
  lead := 0
  current_turn := 0
  current_round := 0
  current_trade_proposals := [(1, tA), (2, tB)]
  current_trades := []
  past_trades := []

/-- A roster where player 2 accepts every trade addressed to it and everyone
else (in particular player 1) rejects. -/
def strats1 : Roster := fun pid =>
  if pid = 2 then { noTrades with accept_trades_as_non_lead := fun _ _ => true }
  else noTrades

/-- The state of `gW0` after `end_round` with an empty acceptance vector. -/
def gW0r : GameState :=
  { gW0 with
    players := gW0.players
    current_trade_proposals := []
    current_trades := gW0.current_trades ++ acceptedOf gW0.current_trade_proposals []
    current_round := gW0.current_round + 1 }

/-- A mid-round state with an EMPTY deck and one outstanding proposal (the
settleable trade `tW2`, addressed to player 1): the last turn of a
deck-exhaustion game. -/
def gW4 : GameState where
  deck := []
  players := psW2
  lead := 0
  current_turn := 3
  current_round := 1
  current_trade_proposals := [(1, tW2)]
  current_trades := []
  past_trades := []

/-- The state of `gW4` after `end_round` accepts and settles `tW2`. -/
def gW4r : GameState :=
  { gW4 with
    players := psW2'
    current_trade_proposals := []
    current_trades := gW4.current_trades ++ acceptedOf gW4.current_trade_proposals [true]
    current_round := gW4.current_round + 1 }

/-- The state of `gW4r` after `end_lead_turn` (a lead change on an empty
deck, flushing the settled trade into `past_trades`). -/
def gW4t : GameState :=
  { gW4r with
    lead := (gW4r.lead + 1) % gW4r.players.length
    past_trades :=
      if 0 < gW4r.current_trades.length
      then gW4r.past_trades ++ [(gW4r.current_turn, gW4r.current_trades)]
      else gW4r.past_trades
    current_trades := []
    current_turn := gW4r.current_turn + 1
    current_round := 0 }

/-! Helper lemmas about the goods-map primitives. -/

lemma getGoods_nil (j : Nat) (c : Cat) : getGoods [] j c = 0 := rfl

lemma getGoods_cons_zero (p : PlayerState) (ps : List PlayerState) (c : Cat) :
    getGoods (p :: ps) 0 c = p.num_goods c := rfl

lemma getGoods_cons_succ (p : PlayerState) (ps : List PlayerState) (j : Nat) (c : Cat) :
    getGoods (p :: ps) (j + 1) c = getGoods ps j c := rfl

lemma length_addGoods (ps : List PlayerState) (i : Nat) (c : Cat) (d : ℚ) :
    (addGoods ps i c d).length = ps.length := by
  induction ps generalizing i with
  | nil => rfl
  | cons p ps ih =>
    cases i with
    | zero => rfl
    | succ i => simpa [addGoods] using ih i

lemma getGoods_addGoods (ps : List PlayerState) (i : Nat) (c0 : Cat) (d : ℚ)
    (j : Nat) (c : Cat) :
    getGoods (addGoods ps i c0 d) j c =
      getGoods ps j c + (if j = i ∧ c = c0 ∧ i < ps.length then d else 0) := by
  induction ps generalizing i j with
  | nil => simp [addGoods, getGoods_nil]
  | cons p ps ih =>
    cases i with
    | zero =>
      cases j with
      | zero =>
        by_cases hc : c = c0 <;>
          simp [addGoods, getGoods_cons_zero, hc]
      | succ j =>
        simp [addGoods, getGoods_cons_succ]
    | succ i =>
      cases j with
      | zero =>
        simp [addGoods, getGoods_cons_zero]
      | succ j =>
        simp only [addGoods, getGoods_cons_succ, ih i j, List.length_cons,
          Nat.succ_lt_succ_iff, Nat.succ.injEq]

lemma playersCatTotal_nil (c : Cat) : playersCatTotal [] c = 0 := rfl

lemma playersCatTotal_cons (p : PlayerState) (ps : List PlayerState) (c : Cat) :
    playersCatTotal (p :: ps) c = p.num_goods c + playersCatTotal ps c := by
  simp [playersCatTotal]

lemma playersCatTotal_addGoods (ps : List PlayerState) (i : Nat) (c0 : Cat) (d : ℚ)
    (c : Cat) :
    playersCatTotal (addGoods ps i c0 d) c =
      playersCatTotal ps c + (if c = c0 ∧ i < ps.length then d else 0) := by
  induction ps generalizing i with
  | nil => simp [addGoods, playersCatTotal_nil]
  | cons p ps ih =>
    cases i with
    | zero =>
      by_cases hc : c = c0
      · simp only [addGoods, playersCatTotal_cons, hc, if_pos, List.length_cons,
          Nat.succ_pos, and_true, if_true]
        ring
      · simp [addGoods, playersCatTotal_cons, hc]
    | succ i =>
      simp only [addGoods, playersCatTotal_cons, ih i, List.length_cons,
        Nat.succ_lt_succ_iff]
      ring

lemma settleEntry_some_iff {ps ps' : List PlayerState} {t : Trade} {c : Cat} {a : ℚ} :
    settleEntry ps t c a = some ps' ↔
      (t.proposer < ps.length ∧ t.accepter < ps.length) ∧
      ((0 < a ∧ a < getGoods ps t.proposer c) ∨
        (¬ 0 < a ∧ -a < getGoods ps t.accepter c)) ∧
      ps' = addGoods (addGoods ps t.proposer c (-a)) t.accepter c a := by
  unfold settleEntry
  split_ifs with h1 h2 h3 h4 <;> simp_all [eq_comm]

lemma settleEntry_length {ps ps' : List PlayerState} {t : Trade} {c : Cat} {a : ℚ}
    (h : settleEntry ps t c a = some ps') : ps'.length = ps.length := by
  rcases settleEntry_some_iff.mp h with ⟨_, _, rfl⟩
  simp [length_addGoods]

lemma settleEntry_total {ps ps' : List PlayerState} {t : Trade} {c : Cat} {a : ℚ}
    (h : settleEntry ps t c a = some ps') (c' : Cat) :
    playersCatTotal ps' c' = playersCatTotal ps c' := by
  rcases settleEntry_some_iff.mp h with ⟨⟨hb1, hb2⟩, _, rfl⟩
  rw [playersCatTotal_addGoods, playersCatTotal_addGoods]
  rw [length_addGoods]
  by_cases hc : c' = c
  · simp [hc, hb1, hb2]
  · simp [hc]

lemma settleEntries_length {t : Trade} {l : List (Cat × ℚ)} {ps ps' : List PlayerState}
    (h : settleEntries t ps l = some ps') : ps'.length = ps.length := by
  induction l generalizing ps with
  | nil =>
    simp only [settleEntries, Option.some.injEq] at h
    rw [← h]
  | cons e rest ih =>
    rw [settleEntries] at h
    cases he : settleEntry ps t e.1 e.2 with
    | none => rw [he] at h; cases h
    | some ps1 =>
      rw [he] at h
      exact (ih h).trans (settleEntry_length he)

lemma settleEntries_total {t : Trade} {l : List (Cat × ℚ)} {ps ps' : List PlayerState}
    (h : settleEntries t ps l = some ps') (c' : Cat) :
    playersCatTotal ps' c' = playersCatTotal ps c' := by
  induction l generalizing ps with
  | nil =>
    simp only [settleEntries, Option.some.injEq] at h
    rw [← h]
  | cons e rest ih =>
    rw [settleEntries] at h
    cases he : settleEntry ps t e.1 e.2 with
    | none => rw [he] at h; cases h
    | some ps1 =>
      rw [he] at h
      exact (ih h).trans (settleEntry_total he c')

lemma settleTrade_length {ps ps' : List PlayerState} {t : Trade}
    (h : settleTrade ps t = some ps') : ps'.length = ps.length :=
  settleEntries_length h

lemma settleTrade_total {ps ps' : List PlayerState} {t : Trade}
    (h : settleTrade ps t = some ps') (c' : Cat) :
    playersCatTotal ps' c' = playersCatTotal ps c' :=
  settleEntries_total h c'

lemma settleTrades_length {ts : List Trade} {ps ps' : List PlayerState}
    (h : settleTrades ps ts = some ps') : ps'.length = ps.length := by
  induction ts generalizing ps with
  | nil =>
    simp only [settleTrades, Option.some.injEq] at h
    rw [← h]
  | cons t ts ih =>
    rw [settleTrades] at h
    cases ht : settleTrade ps t with
    | none => rw [ht] at h; cases h
    | some ps1 =>
      rw [ht] at h
      exact (ih h).trans (settleTrade_length ht)

lemma settleTrades_total {ts : List Trade} {ps ps' : List PlayerState}
    (h : settleTrades ps ts = some ps') (c' : Cat) :
    playersCatTotal ps' c' = playersCatTotal ps c' := by
  induction ts generalizing ps with
  | nil =>
    simp only [settleTrades, Option.some.injEq] at h
    rw [← h]
  | cons t ts ih =>
    rw [settleTrades] at h
    cases ht : settleTrade ps t with
    | none => rw [ht] at h; cases h
    | some ps1 =>
      rw [ht] at h
      exact (ih h).trans (settleTrade_total ht c')

lemma end_round_some {g : GameState} {acc : List Bool} {g' : GameState}
    (h : g.end_round acc = some g') :
    ∃ ps, settleTrades g.players (acceptedOf g.current_trade_proposals acc) = some ps ∧
      g' = { g with
        players := ps
        current_trade_proposals := []
        current_trades := g.current_trades ++ acceptedOf g.current_trade_proposals acc
        current_round := g.current_round + 1 } := by
  simp only [GameState.end_round] at h
  cases hs : settleTrades g.players (acceptedOf g.current_trade_proposals acc) with
  | none => rw [hs] at h; cases h
  | some ps =>
    rw [hs] at h
    exact ⟨ps, rfl, (Option.some.inj h).symm⟩

lemma start_lead_turn_some {g g' : GameState} (h : g.start_lead_turn = some g') :
    ∃ c0, g.deck.getLast? = some c0 ∧ g.lead < g.players.length ∧
      g' = { g with deck := g.deck.dropLast, players := addGoods g.players g.lead c0 1 } := by
  unfold GameState.start_lead_turn at h
  cases hl : g.deck.getLast? with
  | none => rw [hl] at h; cases h
  | some c0 =>
    rw [hl] at h
    split_ifs at h with hb
    exact ⟨c0, rfl, hb, (Option.some.inj h).symm⟩

lemma end_lead_turn_some {g g' : GameState} (h : g.end_lead_turn = some g') :
    g.players.length ≠ 0 ∧ g.current_trade_proposals.length = 0 ∧
      g' = { g with
        lead := (g.lead + 1) % g.players.length
        past_trades :=
          if 0 < g.current_trades.length
          then g.past_trades ++ [(g.current_turn, g.current_trades)]
          else g.past_trades
        current_trades := []
        current_turn := g.current_turn + 1
        current_round := 0 } := by
  unfold GameState.end_lead_turn at h
  split_ifs at h ⊢ <;>
    first
      | exact ⟨by assumption, by assumption, (Option.some.inj h).symm⟩
      | cases h

/-- C4: for every category, the per-category total over all players plus the
count remaining in the deck is preserved by any lead draw and by any round
settlement, each on an arbitrary state of its own (and the draw consumes
exactly one card from the deck tail, while settlement leaves the deck — empty
or not — untouched). -/
theorem c4_conservation (g g1 ge ge2 : GameState) (c : Cat) (acc : List Bool)
    (h1 : g.start_lead_turn = some g1) (h2 : ge.end_round acc = some ge2) :
    (catTotal g1 c = catTotal g c ∧ g1.deck.length + 1 = g.deck.length) ∧
      (catTotal ge2 c = catTotal ge c ∧ ge2.deck = ge.deck ∧
        playersCatTotal ge2.players c = playersCatTotal ge.players c) := by
  constructor
  · rcases start_lead_turn_some h1 with ⟨c0, hl, hb, rfl⟩
    have hdeck : g.deck.dropLast ++ [c0] = g.deck :=
      List.dropLast_append_getLast? c0 (by rw [hl]; rfl)
    constructor
    · simp only [catTotal]
      rw [playersCatTotal_addGoods]
      have hcount : g.deck.count c = g.deck.dropLast.count c + (if c = c0 then 1 else 0) := by
        conv_lhs => rw [← hdeck]
        by_cases hc : c = c0 <;> simp [hc, List.count_append, List.count_singleton, eq_comm]
      rw [hcount]
      by_cases hc : c = c0 <;> push_cast <;> simp [hc, hb] <;> ring
    · have := congrArg List.length hdeck
      simpa using this
  · rcases end_round_some h2 with ⟨ps, hs, rfl⟩
    refine ⟨?_, rfl, settleTrades_total hs c⟩
    simp only [catTotal]
    rw [settleTrades_total hs c]

lemma allNonneg_iff_getGoods {ps : List PlayerState} :
    allNonneg ps ↔ ∀ j (c : Cat), 0 ≤ getGoods ps j c := by
  constructor
  · intro h j c
    unfold getGoods
    cases hj : ps.get? j with
    | none => simp
    | some p => exact h p (List.get?_mem hj) c
  · intro h p hp c
    obtain ⟨j, hj⟩ := List.get?_of_mem hp
    have hc := h j c
    unfold getGoods at hc
    rw [hj] at hc
    exact hc

lemma settleEntry_nonneg {ps ps' : List PlayerState} {t : Trade} {c : Cat} {a : ℚ}
    (h : settleEntry ps t c a = some ps')
    (h0 : ∀ j (c' : Cat), 0 ≤ getGoods ps j c') :
    ∀ j (c' : Cat), 0 ≤ getGoods ps' j c' := by
  rcases settleEntry_some_iff.mp h with ⟨⟨hb1, hb2⟩, hg, rfl⟩
  intro j c'
  rw [getGoods_addGoods, length_addGoods, getGoods_addGoods]
  simp only [hb1, hb2, and_true]
  split_ifs with h1 h2 h3
  · obtain ⟨rfl, rfl⟩ := h1
    linarith [h0 t.proposer c']
  · obtain ⟨rfl, rfl⟩ := h1
    rcases hg with ⟨ha, hlt⟩ | ⟨ha, hlt⟩
    · linarith
    · linarith [h0 t.proposer c']
  · obtain ⟨rfl, rfl⟩ := h3
    rcases hg with ⟨ha, hlt⟩ | ⟨ha, hlt⟩
    · linarith [h0 t.accepter c']
    · linarith
  · simpa using h0 j c'

lemma settleEntries_nonneg {t : Trade} {l : List (Cat × ℚ)} {ps ps' : List PlayerState}
    (h : settleEntries t ps l = some ps')
    (h0 : ∀ j (c' : Cat), 0 ≤ getGoods ps j c') :
    ∀ j (c' : Cat), 0 ≤ getGoods ps' j c' := by
  induction l generalizing ps with
  | nil =>
    simp only [settleEntries, Option.some.injEq] at h
    rw [← h]; exact h0
  | cons e rest ih =>
    rw [settleEntries] at h
    cases he : settleEntry ps t e.1 e.2 with
    | none => rw [he] at h; cases h
    | some ps1 =>
      rw [he] at h
      exact ih h (settleEntry_nonneg he h0)

lemma settleTrades_nonneg {ts : List Trade} {ps ps' : List PlayerState}
    (h : settleTrades ps ts = some ps')
    (h0 : ∀ j (c' : Cat), 0 ≤ getGoods ps j c') :
    ∀ j (c' : Cat), 0 ≤ getGoods ps' j c' := by
  induction ts generalizing ps with
  | nil =>
    simp only [settleTrades, Option.some.injEq] at h
    rw [← h]; exact h0
  | cons t ts ih =>
    rw [settleTrades] at h
    cases ht : settleTrade ps t with
    | none => rw [ht] at h; cases h
    | some ps1 =>
      rw [ht] at h
      exact ih h (settleEntries_nonneg ht h0)

/-- C6: if every player's holding of every category is non-negative before a
round, then after any settlement that completes without an assertion abort
(`end_round` returns `some`), every holding is still non-negative. -/
theorem c6_nonneg_after_settlement (g g' : GameState) (acc : List Bool)
    (h0 : allNonneg g.players) (h : g.end_round acc = some g') :
    allNonneg g'.players := by
  rcases end_round_some h with ⟨ps, hs, rfl⟩
  exact allNonneg_iff_getGoods.mpr (settleTrades_nonneg hs (allNonneg_iff_getGoods.mp h0))

/-- C8: on arbitrary (mutually independent) states, `end_lead_turn` (the lead
change) bumps `current_turn` by exactly 1, resets `current_round` to 0 and
advances the lead cyclically — whatever the deck; `end_round` (a completed
round, trades settled or not) bumps `current_round` by exactly 1 and leaves
`current_turn` and `lead` unchanged; the lead draw changes none of the three.
These are the only transitions of `play` that touch this bookkeeping. -/
theorem c8_turn_round_bookkeeping (g1 ga g2 gb g3 gc : GameState) (acc : List Bool)
    (h1 : g1.end_lead_turn = some ga) (h2 : g2.end_round acc = some gb)
    (h3 : g3.start_lead_turn = some gc) :
    (ga.current_turn = g1.current_turn + 1 ∧ ga.current_round = 0 ∧
      ga.lead = (g1.lead + 1) % g1.players.length) ∧
    (gb.current_round = g2.current_round + 1 ∧ gb.current_turn = g2.current_turn ∧
      gb.lead = g2.lead) ∧
    (gc.current_turn = g3.current_turn ∧ gc.current_round = g3.current_round ∧
      gc.lead = g3.lead) := by
  obtain ⟨-, -, rfl⟩ := end_lead_turn_some h1
  obtain ⟨ps, -, rfl⟩ := end_round_some h2
  obtain ⟨c0, -, -, rfl⟩ := start_lead_turn_some h3
  exact ⟨⟨rfl, rfl, rfl⟩, ⟨rfl, rfl, rfl⟩, ⟨rfl, rfl, rfl⟩⟩

lemma maxByKeyLast_append_singleton (key : Nat → ℚ) (l : List Nat) (a : Nat) :
    maxByKeyLast key (l ++ [a]) =
      some (match maxByKeyLast key l with
            | none => a
            | some v => if key v ≤ key a then a else v) := by
  cases l with
  | nil => rfl
  | cons x xs =>
    simp only [maxByKeyLast, List.cons_append, List.foldl_append, List.foldl_cons,
      List.foldl_nil]

lemma maxByKeyLast_range_spec (key : Nat → ℚ) :
    ∀ n w, maxByKeyLast key (List.range n) = some w →
      w < n ∧ (∀ i < n, key i ≤ key w) ∧ (∀ i < n, key i = key w → i ≤ w) := by
  intro n
  induction n with
  | zero => intro w h; cases h
  | succ n ih =>
    intro w h
    rw [List.range_succ, maxByKeyLast_append_singleton] at h
    cases hm : maxByKeyLast key (List.range n) with
    | none =>
      have hn : n = 0 := by
        cases hr : List.range n with
        | nil => exact List.range_eq_nil.mp hr
        | cons x xs => rw [hr] at hm; cases hm
      subst hn
      rw [hm] at h
      have hw : w = 0 := (Option.some.inj h).symm
      subst hw
      refine ⟨Nat.zero_lt_one, ?_, ?_⟩
      · intro i hi
        interval_cases i
        exact le_refl _
      · intro i hi _
        omega
    | some v =>
      rw [hm] at h
      obtain ⟨hvn, hmax, htie⟩ := ih v hm
      have h' : (if key v ≤ key n then n else v) = w := Option.some.inj h
      by_cases hk : key v ≤ key n
      · rw [if_pos hk] at h'
        subst h'
        refine ⟨Nat.lt_succ_self n, ?_, ?_⟩
        · intro i hi
          rcases Nat.lt_succ_iff_lt_or_eq.mp hi with hi' | rfl
          · exact (hmax i hi').trans hk
          · exact le_refl _
        · intro i hi _
          exact Nat.lt_succ_iff.mp hi
      · rw [if_neg hk] at h'
        subst h'
        push_neg at hk
        refine ⟨Nat.lt_succ_of_lt hvn, ?_, ?_⟩
        · intro i hi
          rcases Nat.lt_succ_iff_lt_or_eq.mp hi with hi' | rfl
          · exact hmax i hi'
          · exact le_of_lt hk
        · intro i hi he
          rcases Nat.lt_succ_iff_lt_or_eq.mp hi with hi' | rfl
          · exact htie i hi' he
          · exact absurd he (ne_of_lt hk)

lemma from_state_some {g : GameState} {r : GameResult}
    (h : GameResult.from_state g = some r) :
    ∃ w, maxByKeyLast (scoreAt g) (List.range g.players.length) = some w ∧
      r = ⟨g.current_turn, w, g.players.map PlayerState.score⟩ := by
  simp only [GameResult.from_state] at h
  cases hm : maxByKeyLast (fun pi => (g.players.map PlayerState.score).getD pi 0)
      (List.range g.players.length) with
  | none => rw [hm] at h; cases h
  | some w =>
    rw [hm] at h
    exact ⟨w, hm, (Option.some.inj h).symm⟩

/-- C3 counterexample: with two players whose scores are exactly tied (both
zero), `from_state` reports player 1 as the winner — the HIGHEST tied index,
not the lowest as the claim states. -/
theorem c3_counterexample :
    (GameResult.from_state gC3).map GameResult.winner = some 1 ∧
    scoreAt gC3 0 = scoreAt gC3 1 := by
  constructor
  · norm_num [GameResult.from_state, maxByKeyLast, gC3, zeroPlayer, PlayerState.score,
      Cat.all, List.range_succ]
  · norm_num [scoreAt, gC3]

/-- C3 amended: for every terminated game the reported winner is an in-range
player index achieving the maximum score, and when several players tie
exactly on the maximum score the winner is the one with the HIGHEST index
(Rust's `max_by_key` keeps the last maximal element). -/
theorem c3_winner_is_last_argmax (g : GameState) (r : GameResult)
    (h : GameResult.from_state g = some r) :
    r.winner < g.players.length ∧
    (∀ i < g.players.length, scoreAt g i ≤ scoreAt g r.winner) ∧
    (∀ i < g.players.length, scoreAt g i = scoreAt g r.winner → i ≤ r.winner) := by
  obtain ⟨w, hm, rfl⟩ := from_state_some h
  exact maxByKeyLast_range_spec (scoreAt g) g.players.length w hm

/-- C3 witness: the amended theorem applied to the concrete tied game. -/
theorem c3_winner_witness :
    GameResult.from_state gC3 = some ⟨0, 1, [0, 0]⟩ ∧
    (1 : Nat) < gC3.players.length ∧
    (∀ i < gC3.players.length, scoreAt gC3 i ≤ scoreAt gC3 1) := by
  have h : GameResult.from_state gC3 = some ⟨0, 1, [0, 0]⟩ := by
    norm_num [GameResult.from_state, maxByKeyLast, gC3, zeroPlayer, PlayerState.score,
      Cat.all, List.range_succ]
  have h2 := c3_winner_is_last_argmax gC3 ⟨0, 1, [0, 0]⟩ h
  exact ⟨h, h2.1, h2.2.1⟩

/-- C7: the victory check fires at the start of every round, before any
proposal is processed.  If the lead's score meets the threshold at any round
start, the inner round loop exits at once with the state untouched, and the
whole game returns the `from_state` snapshot of that exact state — so no
proposals are collected, no acceptances evaluated, and no trades settled in
that turn or any later turn. -/
theorem c7_victory_check (strats : Roster) (rules : GameRules) (n roundFuel turnFuel : Nat)
    (g0 g1 : GameState) (p : PlayerState)
    (hguard : g0.current_turn < rules.max_turns ∧ 0 < g0.deck.length)
    (hdraw : g0.start_lead_turn = some g1)
    (hlead : g1.players.get? g1.lead = some p)
    (hscore : rules.victory_threshold ≤ p.score) :
    (∀ (g : GameState) (q : PlayerState), g.players.get? g.lead = some q →
        rules.victory_threshold ≤ q.score →
        playRounds strats rules n (roundFuel + 1) g = some (RoundsExit.victory g)) ∧
    playTurns strats rules n (roundFuel + 1) (turnFuel + 1) g0 = GameResult.from_state g1 := by
  have hrounds : ∀ (g : GameState) (q : PlayerState), g.players.get? g.lead = some q →
      rules.victory_threshold ≤ q.score →
      playRounds strats rules n (roundFuel + 1) g = some (RoundsExit.victory g) := by
    intro g q hq hs
    simp only [playRounds, hq, hs, if_true]
  refine ⟨hrounds, ?_⟩
  simp only [playTurns, hguard.1, hguard.2, and_self, if_true, hdraw,
    hrounds g1 p hlead hscore]

/-- C7 witness: a concrete one-player game with a zero victory threshold ends
with the snapshot taken right after the first draw. -/
theorem c7_victory_witness :
    playTurns rosterW rW 1 1 1 gW0 = GameResult.from_state gW1 := by
  have hguard : gW0.current_turn < rW.max_turns ∧ 0 < gW0.deck.length := by
    constructor
    · norm_num [gW0, rW]
    · norm_num [gW0]
  have hdraw : gW0.start_lead_turn = some gW1 := rfl
  have hlead : gW1.players.get? gW1.lead = some pW1 := rfl
  have hscore : rW.victory_threshold ≤ pW1.score := by
    norm_num [rW, pW1, zeroPlayer, PlayerState.score, Cat.all]
  exact (c7_victory_check rosterW rW 1 0 0 gW0 gW1 pW1 hguard hdraw hlead hscore).2

lemma settleEntries_abort {t : Trade} {c : Cat} {a : ℚ} :
    ∀ (l : List (Cat × ℚ)) (ps : List PlayerState),
      (l.map Prod.fst).Nodup → (c, a) ∈ l →
      t.proposer < ps.length → t.accepter < ps.length →
      ((0 < a ∧ getGoods ps t.proposer c ≤ a) ∨
        (a < 0 ∧ getGoods ps t.accepter c ≤ -a)) →
      settleEntries t ps l = none := by
  intro l
  induction l with
  | nil => intro ps _ hmem _ _ _; cases hmem
  | cons e rest ih =>
    intro ps hnd hmem hb1 hb2 hviol
    rcases List.mem_cons.mp hmem with he | hmem'
    · have hfail : settleEntry ps t e.1 e.2 = none := by
        rw [← he]
        unfold settleEntry
        rw [if_pos ⟨hb1, hb2⟩]
        rcases hviol with ⟨ha, hle⟩ | ⟨ha, hle⟩
        · rw [if_pos ha, if_neg (not_lt.mpr hle)]
        · rw [if_neg (not_lt.mpr (le_of_lt ha)), if_neg (not_lt.mpr hle)]
      rw [settleEntries, hfail]
    · have hne : ¬ (c = e.1) := by
        intro heq
        rw [List.map_cons, List.nodup_cons] at hnd
        exact hnd.1 (heq ▸ List.mem_map.mpr ⟨(c, a), hmem', rfl⟩)
      rw [settleEntries]
      cases he2 : settleEntry ps t e.1 e.2 with
      | none => rfl
      | some ps1 =>
        rcases settleEntry_some_iff.mp he2 with ⟨⟨b1, b2⟩, -, rfl⟩
        have hnd' : (rest.map Prod.fst).Nodup := by
          rw [List.map_cons, List.nodup_cons] at hnd; exact hnd.2
        have hget : ∀ j, getGoods
            (addGoods (addGoods ps t.proposer e.1 (-e.2)) t.accepter e.1 e.2) j c =
            getGoods ps j c := by
          intro j
          rw [getGoods_addGoods, getGoods_addGoods]
          simp [hne]
        refine ih _ hnd' hmem' ?_ ?_ ?_
        · rw [length_addGoods, length_addGoods]; exact hb1
        · rw [length_addGoods, length_addGoods]; exact hb2
        · rw [hget, hget]; exact hviol

/-- C5: before settling each accepted trade, for every nonzero signed entry of
`from_proposor` the engine requires the source side (the proposer for a
positive amount, the accepter for a negative one) to hold STRICTLY more than
the transferred quantity at the moment that trade is settled; a violation is
the `assert!` abort (`none`) — the settlement never completes in clamped or
otherwise recovered form, and the abort propagates through `end_round`. -/
theorem c5_holding_precondition (ps : List PlayerState) (t : Trade) (c : Cat) (a : ℚ)
    (hnd : (t.from_proposor.map Prod.fst).Nodup)
    (hmem : (c, a) ∈ t.from_proposor)
    (hb1 : t.proposer < ps.length) (hb2 : t.accepter < ps.length)
    (hviol : (0 < a ∧ getGoods ps t.proposer c ≤ a) ∨
      (a < 0 ∧ getGoods ps t.accepter c ≤ -a)) :
    settleTrade ps t = none ∧
    ∀ (g : GameState) (acc : List Bool), g.players = ps →
      acceptedOf g.current_trade_proposals acc = [t] → g.end_round acc = none := by
  have habort : settleTrade ps t = none :=
    settleEntries_abort t.from_proposor ps hnd hmem hb1 hb2 hviol
  refine ⟨habort, ?_⟩
  intro g acc hps hacc
  simp only [GameState.end_round, hacc, hps, settleTrades, habort, Option.map_none']

/-- C5 witness: an empty-handed proposer owing 1 food aborts settlement. -/
theorem c5_holding_witness : settleTrade ps5 t5 = none :=
  (c5_holding_precondition ps5 t5 Cat.food 1
    (by simp [t5])
    (by simp [t5])
    (by norm_num [t5, ps5])
    (by norm_num [t5, ps5])
    (Or.inl ⟨by norm_num, by norm_num [getGoods, ps5, t5, zeroPlayer]⟩)).1

lemma settleEntries_ignores_from_acceptor (t : Trade) (fa : List (Cat × ℚ)) :
    ∀ (l : List (Cat × ℚ)) (ps : List PlayerState),
      settleEntries { t with from_acceptor := fa } ps l = settleEntries t ps l := by
  intro l
  induction l with
  | nil => intro ps; rfl
  | cons e rest ih =>
    intro ps
    rw [settleEntries, settleEntries]
    have hsame : settleEntry ps { t with from_acceptor := fa } e.1 e.2 =
        settleEntry ps t e.1 e.2 := rfl
    rw [hsame]
    cases settleEntry ps t e.1 e.2 with
    | none => rfl
    | some ps1 => exact ih ps1

lemma settleEntries_getGoods {t : Trade} :
    ∀ (l : List (Cat × ℚ)) (ps ps' : List PlayerState),
      settleEntries t ps l = some ps' →
      ∀ j (c : Cat), getGoods ps' j c = getGoods ps j c
        + (if j = t.accepter then entriesAmount c l else 0)
        - (if j = t.proposer then entriesAmount c l else 0) := by
  intro l
  induction l with
  | nil =>
    intro ps ps' h j c
    simp only [settleEntries, Option.some.injEq] at h
    subst h
    simp [entriesAmount]
  | cons e rest ih =>
    intro ps ps' h j c
    rw [settleEntries] at h
    cases he : settleEntry ps t e.1 e.2 with
    | none => rw [he] at h; cases h
    | some ps1 =>
      rw [he] at h
      have hrec := ih ps1 ps' h j c
      rcases settleEntry_some_iff.mp he with ⟨⟨hb1, hb2⟩, -, hps1⟩
      subst hps1
      rw [hrec, getGoods_addGoods, length_addGoods, getGoods_addGoods]
      simp only [hb1, hb2, and_true, entriesAmount]
      by_cases h3 : c = e.1
      · subst h3
        simp only [eq_self_iff_true, and_true, if_true]
        split_ifs <;> ring
      · have h4 : ¬ (e.1 = c) := fun hh => h3 hh.symm
        simp only [h3, h4, and_false, if_false, add_zero, zero_add] <;>
          (split_ifs <;> ring)

/-- C2 counterexample: a trade whose `from_acceptor` map demands 1 food from
the accepter settles as a no-op — the accepter still holds all 5 food, so the
`from_acceptor` side of the trade is NOT transferred. -/
theorem c2_counterexample :
    settleTrade ps2 t2 = some ps2 ∧
    entriesAmount Cat.food t2.from_acceptor = 1 ∧
    getGoods ps2 1 Cat.food = 5 := by
  refine ⟨rfl, ?_, ?_⟩
  · norm_num [entriesAmount, t2]
  · norm_num [getGoods, ps2, pFood5]

/-- C2 amended: settlement applies exactly the `from_proposor` signed map —
for every player and category the holding changes by the `from_proposor`
amount, added for the accepter and subtracted for the proposer (negative
amounts thus flow from accepter to proposer) — and the `from_acceptor` map is
never read: replacing it arbitrarily leaves the settlement result unchanged. -/
theorem c2_settlement_from_proposor_only (ps ps' : List PlayerState) (t : Trade)
    (h : settleTrade ps t = some ps') :
    (∀ j (c : Cat), getGoods ps' j c = getGoods ps j c
      + (if j = t.accepter then entriesAmount c t.from_proposor else 0)
      - (if j = t.proposer then entriesAmount c t.from_proposor else 0)) ∧
    ∀ fa, settleTrade ps { t with from_acceptor := fa } = some ps' := by
  constructor
  · exact settleEntries_getGoods t.from_proposor ps ps' h
  · intro fa
    show settleEntries { t with from_acceptor := fa } ps t.from_proposor = some ps'
    rw [settleEntries_ignores_from_acceptor]
    exact h

lemma settleTrade_psW2_tW2 : settleTrade psW2 tW2 = some psW2' := by
  show settleEntries tW2 psW2 [(Cat.food, 1)] = some psW2'
  rw [settleEntries]
  have hentry : settleEntry psW2 tW2 Cat.food 1 = some psW2' := by
    unfold settleEntry
    rw [if_pos (by constructor <;> norm_num [tW2, psW2])]
    rw [if_pos (by norm_num)]
    rw [if_pos (by norm_num [getGoods, psW2, tW2, pFood5])]
    rfl
  rw [hentry]
  rfl

lemma end_round_gW4 : gW4.end_round [true] = some gW4r := by
  simp only [GameState.end_round]
  have hacc : acceptedOf gW4.current_trade_proposals [true] = [tW2] := rfl
  rw [hacc]
  have hs : settleTrades gW4.players [tW2] = some psW2' := by
    show settleTrades psW2 [tW2] = some psW2'
    rw [settleTrades, settleTrade_psW2_tW2]
    rfl
  rw [hs]
  rfl

/-- C2 witness: settling a 1-food trade moves exactly 1 food to the accepter. -/
theorem c2_settlement_witness :
    settleTrade psW2 tW2 = some psW2' ∧
    getGoods psW2' 1 Cat.food = getGoods psW2 1 Cat.food
      + (if 1 = tW2.accepter then entriesAmount Cat.food tW2.from_proposor else 0)
      - (if 1 = tW2.proposer then entriesAmount Cat.food tW2.from_proposor else 0) :=
  ⟨settleTrade_psW2_tW2,
    (c2_settlement_from_proposor_only psW2 psW2' tW2 settleTrade_psW2_tW2).1 1 Cat.food⟩

lemma genPlayersGo_isSome (sm : ℚ) :
    ∀ (l : List Nat) (deck : List (Cat → ℚ)), l.length ≤ deck.length →
      ((genPlayersGo sm l deck).isSome ↔ ∀ pn ∈ l, pn < OFFSET.length) := by
  intro l
  induction l with
  | nil => intro deck _; simp [genPlayersGo]
  | cons pn rest ih =>
    intro deck hlen
    have hne : deck ≠ [] := by
      intro hd
      rw [hd] at hlen
      simp at hlen
    obtain ⟨c0, hl⟩ := Option.isSome_iff_exists.mp (List.getLast?_isSome.mpr hne)
    rw [genPlayersGo, hl]
    cases ho : OFFSET.get? pn with
    | none =>
      have hge : OFFSET.length ≤ pn := List.get?_eq_none.mp ho
      simp only [Option.isSome_none, Bool.false_eq_true, false_iff]
      intro hall
      exact absurd (hall pn (List.mem_cons_self pn rest)) (not_lt.mpr hge)
    | some off =>
      have hlt : pn < OFFSET.length := by
        by_contra hx
        rw [List.get?_eq_none.mpr (not_lt.mp hx)] at ho
        cases ho
      have hlen' : rest.length ≤ deck.dropLast.length := by
        rw [List.length_dropLast]
        have : rest.length + 1 ≤ deck.length := by simpa using hlen
        omega
      cases hg : genPlayersGo sm rest deck.dropLast with
      | none =>
        have := (ih deck.dropLast hlen')
        rw [hg] at this
        simp only [Option.map_none', Option.isSome_none, Bool.false_eq_true, false_iff]
        simp only [Option.isSome_none, Bool.false_eq_true, false_iff] at this
        intro hall
        exact this fun q hq => hall q (List.mem_cons_of_mem pn hq)
      | some ps =>
        have := (ih deck.dropLast hlen')
        rw [hg] at this
        simp only [Option.map_some', Option.isSome_some, true_iff]
        simp only [Option.isSome_some, true_iff] at this
        intro q hq
        rcases List.mem_cons.mp hq with rfl | hq'
        · exact hlt
        · exact this q hq'

/-- C10: with a preferences deck of at least `n` cards, `generate_players n`
succeeds exactly when `n ≤ 11`: the per-seat starting-cash `OFFSET` array has
11 entries indexed by seat number, so seat 11 (the twelfth) panics with an
out-of-bounds index even though `SimConfig` permits any `num_players`. -/
theorem c10_offset_bound (n : Nat) (sm : ℚ) (deck : List (Cat → ℚ))
    (hdeck : n ≤ deck.length) :
    (generate_players n sm deck).isSome ↔ n ≤ 11 := by
  rw [generate_players,
    genPlayersGo_isSome sm (List.range n) deck (by simpa using hdeck)]
  have hOl : OFFSET.length = 11 := rfl
  constructor
  · intro h
    by_contra hn
    push_neg at hn
    have h11 : (11 : Nat) ∈ List.range n := List.mem_range.mpr hn
    have := h 11 h11
    omega
  · intro hn pn hpn
    have := List.mem_range.mp hpn
    omega

/-- C10 witness: two seats with a two-card deck succeed, and 2 ≤ 11. -/
theorem c10_offset_witness :
    (2 : Nat) ≤ deckW10.length ∧
    ((generate_players 2 10 deckW10).isSome ↔ (2 : Nat) ≤ 11) :=
  ⟨by norm_num [deckW10], c10_offset_bound 2 10 deckW10 (by norm_num [deckW10])⟩

/-- C1 (code evaluation): on an even round with proposals to players 1 and 2,
player 1 rejects its trade `tA` and player 2 accepts its trade `tB`; the
engine nevertheless settles `tA` (the rejected one) and drops `tB` (the
accepted one), because `play` filters the decision vector down to the `true`
entries before `end_round` zips it positionally with the proposal map. -/
theorem c1_misaligned_settlement :
    (strats1 1).accept_trades_as_non_lead gC1 tA = false ∧
    (strats1 2).accept_trades_as_non_lead gC1 tB = true ∧
    evenAcceptances strats1 gC1 = [true] ∧
    (gC1.end_round (evenAcceptances strats1 gC1)).map GameState.current_trades = some [tA] ∧
    tA ≠ tB := by
  refine ⟨rfl, rfl, rfl, rfl, ?_⟩
  intro h
  have := congrArg Trade.accepter h
  simp [tA, tB] at this

/-- C4 witness: conservation instantiated on a concrete draw (`gW0`) and,
independently, on a concrete round that settles a real trade on an EMPTY
deck (`gW4`). -/
theorem c4_conservation_witness :
    gW0.start_lead_turn = some gW1 ∧ gW4.end_round [true] = some gW4r ∧
    catTotal gW1 Cat.food = catTotal gW0 Cat.food ∧
    catTotal gW4r Cat.food = catTotal gW4 Cat.food ∧ gW4r.deck = gW4.deck :=
  ⟨rfl, end_round_gW4,
    ((c4_conservation gW0 gW1 gW4 gW4r Cat.food [true] rfl end_round_gW4).1).1,
    ((c4_conservation gW0 gW1 gW4 gW4r Cat.food [true] rfl end_round_gW4).2).1,
    ((c4_conservation gW0 gW1 gW4 gW4r Cat.food [true] rfl end_round_gW4).2).2.1⟩

/-- C6 witness: non-negativity carried through a concrete settlement. -/
theorem c6_nonneg_witness : allNonneg gW0r.players := by
  have h0 : allNonneg gW0.players := by
    intro p hp c
    simp only [gW0, List.mem_singleton] at hp
    subst hp
    norm_num [zeroPlayer]
  exact c6_nonneg_after_settlement gW0 gW0r [] h0 rfl

/-- C8 witness: the bookkeeping transitions on concrete independent states —
a lead change on an empty deck after a settled trade (`gW4r`), a round that
settles a real trade (`gW4`), and a draw (`gW0`). -/
theorem c8_bookkeeping_witness :
    gW4r.end_lead_turn = some gW4t ∧ gW4.end_round [true] = some gW4r ∧
    gW4t.current_turn = gW4r.current_turn + 1 ∧ gW4t.current_round = 0 ∧
    gW4r.current_round = gW4.current_round + 1 ∧ gW4r.current_turn = gW4.current_turn ∧
    gW4r.lead = gW4.lead ∧ gW1.lead = gW0.lead := by
  have h := c8_turn_round_bookkeeping gW4r gW4t gW4 gW4r gW0 gW1 [true] rfl end_round_gW4 rfl
  exact ⟨rfl, end_round_gW4, h.1.1, h.1.2.1, h.2.1.1, h.2.1.2.1, h.2.1.2.2, h.2.2.2.2⟩

lemma statsOfList_append_singleton (l : List ℚ) (x : ℚ) :
    statsOfList (l ++ [x]) = (statsOfList l).add x := by
  simp [statsOfList, List.foldl_append]

lemma statsOfList_welford (l : List ℚ) :
    (statsOfList l).n = l.length ∧
    (statsOfList l).avg = l.sum / l.length ∧
    (statsOfList l).sum_2 = (l.map fun x => x ^ 2).sum - l.sum ^ 2 / l.length := by
  induction l using List.reverseRecOn with
  | nil => norm_num [statsOfList, Stats.new]
  | append_singleton l x ih =>
    obtain ⟨hn, havg, hs2⟩ := ih
    rw [statsOfList_append_singleton]
    rcases eq_or_ne l [] with rfl | hne
    · norm_num [statsOfList, Stats.new, Stats.add]
    · have hpos : 0 < l.length := List.length_pos.mpr hne
      have hlen : (l.length : ℚ) ≠ 0 := Nat.cast_ne_zero.mpr (Nat.pos_iff_ne_zero.mp hpos)
      have hlen1 : ((l.length : ℚ) + 1) ≠ 0 := by positivity
      refine ⟨?_, ?_, ?_⟩
      · simp [Stats.add, hn]
      · simp only [Stats.add, hn, havg, List.sum_append, List.length_append,
          List.sum_cons, List.sum_nil, List.length_cons, List.length_nil]
        push_cast
        field_simp
        ring
      · simp only [Stats.add, hn, havg, hs2, List.sum_append, List.length_append,
          List.map_append, List.map_cons, List.map_nil, List.sum_cons, List.sum_nil,
          List.length_cons, List.length_nil]
        push_cast
        field_simp
        ring

lemma statsOfList_minv_spec (l : List ℚ) (hne : l ≠ []) :
    ∃ m, (statsOfList l).minv = some m ∧ m ∈ l ∧ ∀ y ∈ l, m ≤ y := by
  induction l using List.reverseRecOn with
  | nil => cases hne rfl
  | append_singleton l x ih =>
    rw [statsOfList_append_singleton]
    rcases eq_or_ne l [] with rfl | hne'
    · exact ⟨x, by simp [statsOfList, Stats.new, Stats.add], by simp, by simp⟩
    · obtain ⟨m, hm, hmem, hub⟩ := ih hne'
      refine ⟨min m x, by simp [Stats.add, hm], ?_, ?_⟩
      · rcases le_total m x with hmx | hxm
        · rw [min_eq_left hmx]; exact List.mem_append_left _ hmem
        · rw [min_eq_right hxm]; exact List.mem_append_right _ (by simp)
      · intro y hy
        rcases List.mem_append.mp hy with hy' | hy'
        · exact le_trans (min_le_left m x) (hub y hy')
        · rw [List.mem_singleton.mp hy']; exact min_le_right m x

lemma statsOfList_maxv_spec (l : List ℚ) (hne : l ≠ []) :
    ∃ m, (statsOfList l).maxv = some m ∧ m ∈ l ∧ ∀ y ∈ l, y ≤ m := by
  induction l using List.reverseRecOn with
  | nil => cases hne rfl
  | append_singleton l x ih =>
    rw [statsOfList_append_singleton]
    rcases eq_or_ne l [] with rfl | hne'
    · exact ⟨x, by simp [statsOfList, Stats.new, Stats.add], by simp, by simp⟩
    · obtain ⟨m, hm, hmem, hub⟩ := ih hne'
      refine ⟨max m x, by simp [Stats.add, hm], ?_, ?_⟩
      · rcases le_total m x with hmx | hxm
        · rw [max_eq_right hmx]; exact List.mem_append_right _ (by simp)
        · rw [max_eq_left hxm]; exact List.mem_append_left _ hmem
      · intro y hy
        rcases List.mem_append.mp hy with hy' | hy'
        · exact le_trans (hub y hy') (le_max_left m x)
        · rw [List.mem_singleton.mp hy']; exact le_max_right m x

/-- C9: feeding the values 1, 2, 3, 4 one at a time in any order yields
min = 1, max = 4, mean = 5/2 and population variance = 5/4, and feeding a
single value `v` yields mean = `v` and variance = 0 (exact arithmetic). -/
theorem c9_stats_aggregator (l : List ℚ) (hl : l.Perm [1, 2, 3, 4]) :
    ((statsOfList l).minVal = some 1 ∧ (statsOfList l).maxVal = some 4 ∧
      (statsOfList l).mean = 5 / 2 ∧ (statsOfList l).popVar = 5 / 4) ∧
    ∀ v : ℚ, (statsOfList [v]).mean = v ∧ (statsOfList [v]).popVar = 0 := by
  have hlen : l.length = 4 := by rw [hl.length_eq]; rfl
  have hsum : l.sum = 10 := by rw [hl.sum_eq]; norm_num
  have hsumsq : (l.map fun x => x ^ 2).sum = 30 := by
    rw [(hl.map fun x => x ^ 2).sum_eq]; norm_num
  obtain ⟨hn, havg, hs2⟩ := statsOfList_welford l
  have hne : l ≠ [] := by intro h; rw [h] at hlen; cases hlen
  constructor
  · refine ⟨?_, ?_, ?_, ?_⟩
    · obtain ⟨m, hm, hmem, hub⟩ := statsOfList_minv_spec l hne
      have h1l : (1 : ℚ) ∈ l := hl.mem_iff.mpr (by norm_num)
      have hml : m ∈ ([1, 2, 3, 4] : List ℚ) := hl.mem_iff.mp hmem
      have h1m : (1 : ℚ) ≤ m := by
        simp only [List.mem_cons, List.not_mem_nil, or_false] at hml
        rcases hml with rfl | rfl | rfl | rfl <;> norm_num
      have hm1 : m = 1 := le_antisymm (hub 1 h1l) h1m
      simp only [Stats.minVal, hm, hm1]
    · obtain ⟨m, hm, hmem, hub⟩ := statsOfList_maxv_spec l hne
      have h4l : (4 : ℚ) ∈ l := hl.mem_iff.mpr (by norm_num)
      have hml : m ∈ ([1, 2, 3, 4] : List ℚ) := hl.mem_iff.mp hmem
      have h4m : m ≤ 4 := by
        simp only [List.mem_cons, List.not_mem_nil, or_false] at hml
        rcases hml with rfl | rfl | rfl | rfl <;> norm_num
      have hm4 : m = 4 := le_antisymm h4m (hub 4 h4l)
      simp only [Stats.maxVal, hm, hm4]
    · rw [Stats.mean, havg, hsum, hlen]; norm_num
    · rw [Stats.popVar, hs2, hn, hsum, hsumsq, hlen]; norm_num
  · intro v
    constructor
    · norm_num [statsOfList, Stats.add, Stats.new, Stats.mean]
    · norm_num [statsOfList, Stats.add, Stats.new, Stats.popVar]

/-- C9 witness: the out-of-order stream 2, 1, 4, 3 gives the same mean and
population variance. -/
theorem c9_stats_witness :
    ([2, 1, 4, 3] : List ℚ).Perm [1, 2, 3, 4] ∧
    (statsOfList [2, 1, 4, 3]).mean = 5 / 2 ∧
    (statsOfList [2, 1, 4, 3]).popVar = 5 / 4 := by
  have hp : ([2, 1, 4, 3] : List ℚ).Perm [1, 2, 3, 4] := by
    have h1 : ([2, 1, 4, 3] : List ℚ).Perm [1, 2, 4, 3] := List.Perm.swap 1 2 [4, 3]
    have h2 : ([4, 3] : List ℚ).Perm [3, 4] := List.Perm.swap 3 4 []
    exact h1.trans ((h2.cons 2).cons 1)
  have h := c9_stats_aggregator [2, 1, 4, 3] hp
  exact ⟨hp, h.1.2.2.1, h.1.2.2.2⟩

end Hedonica
